import Mathlib

/-!
Verification development for a shapefile-archive-to-KML conversion service.

The embedding models, over `List Char` strings:
  * the client-side archive listing validator (`validateZipContents`),
  * the KML combiner with its three-tier placemark extraction
    (`combineKmlFiles`, `extractPlacemarks`),
  * the converter-diagnostic scanner (`scanOutput`),
  * the input-directory locator (`locateInputDir`),
  * the processing pipeline with its record updates and filesystem
    reclamation (`runPipeline`), and
  * the three download endpoints (`downloadCombined`, `downloadIndividual`,
    `downloadAll`).

Regex lazy matching (`<tag>[\s\S]*?</tag>`) is modelled by first-occurrence
scanning (`splitFirst`); JavaScript `String.replace` with a string pattern
replaces the first occurrence (`replaceFirst`); `String.trim` is modelled on
ASCII whitespace.
-/

set_option maxHeartbeats 1000000

set_option maxRecDepth 40000

abbrev Str := List Char

/-- Boolean test that `p` is a prefix of `s` (character-wise). -/
def isPrefB : Str → Str → Bool
  | [], _ => true
  | _ :: _, [] => false
  | a :: p, b :: s => a == b && isPrefB p s

/-- First-occurrence splitter: `splitFirst p s = some (a, b)` when
`s = a ++ p ++ b` with `a` shortest possible; `none` when `p` does not
occur in `s`.  This models leftmost regex matching and `String.includes`. -/
def splitFirst (p : Str) : Str → Option (Str × Str)
  | [] => if isPrefB p [] then some ([], []) else none
  | c :: t =>
    if isPrefB p (c :: t) then some ([], (c :: t).drop p.length)
    else (splitFirst p t).map (fun ab => (c :: ab.1, ab.2))

/-- JavaScript `String.includes`. -/
def containsB (s p : Str) : Bool := (splitFirst p s).isSome

/-- JavaScript `String.replace` with a plain-string pattern: replaces the
first occurrence only, returns the string unchanged when absent. -/
def replaceFirst (p repl s : Str) : Str :=
  match splitFirst p s with
  | none => s
  | some ab => ab.1 ++ repl ++ ab.2

/-- JavaScript `String.endsWith`. -/
def endsWithB (s p : Str) : Bool := p.isSuffixOf s

/-- JavaScript `String.startsWith`. -/
def startsWithB (s p : Str) : Bool := isPrefB p s

/-- JavaScript `String.toLowerCase` (ASCII range as used by the sources). -/
def lowerL (s : Str) : Str := s.map Char.toLower

/-- ASCII whitespace, for modelling `String.trim`. -/
def isWsB (c : Char) : Bool := c == ' ' || c == '\t' || c == '\n' || c == '\r'

/-- JavaScript `String.trim` (ASCII whitespace). -/
def trimL (s : Str) : Str :=
  ((s.dropWhile isWsB).reverse.dropWhile isWsB).reverse

/-- Split a text into lines at newline characters, like `split('\n')`. -/
def splitLinesAux : Str → Str → List Str
  | [], acc => [acc.reverse]
  | c :: t, acc =>
    if c == '\n' then acc.reverse :: splitLinesAux t []
    else splitLinesAux t (c :: acc)

/-- JavaScript `text.split('\n')`. -/
def splitLines (s : Str) : List Str := splitLinesAux s []

/-- JavaScript `Array.join(g)`. -/
def joinSep (g : Str) : List Str → Str
  | [] => []
  | [f] => f
  | f :: fs => f ++ g ++ joinSep g fs

/-- JavaScript `arr.some(y => y === x)` over a string list. -/
def memB (x : Str) (l : List Str) : Bool := l.any (fun y => y == x)

/-- Decidable side condition used to drive first-occurrence scanning through
glue text `g`: no nonempty suffix of `g`, continued by `nxt`, starts an
occurrence of `p`. -/
def noEarlyB (p g nxt : Str) : Bool :=
  g.tails.all (fun g2 => g2.isEmpty || !(isPrefB p (g2 ++ nxt)))

/-! ## KML combiner: constants and placemark extraction -/

def opn : Str := "<Placemark>".toList

def cls : Str := "</Placemark>".toList

def docOpen : Str := "<Document>".toList

def docClose : Str := "</Document>".toList

def kmlOpen : Str := "<kml".toList

def kmlClose : Str := "</kml>".toList

/-- Header of the combined document, verbatim from the combiner. -/
def header : Str :=
  ("<?xml version=\"1.0\" encoding=\"UTF-8\"?>\n<kml xmlns=\"http://www.opengis.net/kml/2.2\">\n  <Document>\n    <name>Combined Shapefiles</name>\n    <description>Combined KML from multiple shapefiles</description>").toList

/-- Separator inserted before each appended placemark fragment. -/
def sep : Str := "\n    ".toList

/-- Footer of the combined document, verbatim from the combiner. -/
def footer : Str := "\n  </Document>\n</kml>".toList

/-- Fuelled scanner for the global lazy regex
`/<Placemark>[\s\S]*?<\/Placemark>/g`: repeatedly take the next occurrence
of the opening tag, then the first closing tag after it. -/
def pmMatchesF : Nat → Str → List Str
  | 0, _ => []
  | n + 1, s =>
    match splitFirst opn s with
    | none => []
    | some ar =>
      match splitFirst cls ar.2 with
      | none => []
      | some mr => (opn ++ mr.1 ++ cls) :: pmMatchesF n mr.2

/-- All matches of the placemark pattern in `s`, in order. -/
def pmMatches (s : Str) : List Str := pmMatchesF s.length s

/-- Lazy match of `/<Document>[\s\S]*?<\/Document>/` (first match or none). -/
def docSection (s : Str) : Option Str :=
  match splitFirst docOpen s with
  | none => none
  | some ar =>
    match splitFirst docClose ar.2 with
    | none => none
    | some mr => some (docOpen ++ mr.1 ++ docClose)

/-- Fuelled match of `/<kml[^>]*>([\s\S]*?)<\/kml>/`, returning the capture
group: after an occurrence of `<kml`, greedily skip non-`>` characters; a
`>` must follow, then the capture runs lazily to the first `</kml>`.  When
completion fails the scan resumes at later `<kml` occurrences, as a
backtracking regex engine does. -/
def kmlInnerF : Nat → Str → Option Str
  | 0, _ => none
  | n + 1, s =>
    match splitFirst kmlOpen s with
    | none => none
    | some ar =>
      match ar.2.dropWhile (fun c => !(c == '>')) with
      | [] => none
      | _ :: r2 =>
        match splitFirst kmlClose r2 with
        | some ir => some ir.1
        | none => kmlInnerF n ar.2

/-- Capture group of the `<kml …>…</kml>` regex over `s`. -/
def kmlInner (s : Str) : Option Str := kmlInnerF s.length s

/-- Tier (b) of the extraction: placemarks found inside the first
`<Document>…</Document>` section. -/
def tierDoc (s : Str) : List Str :=
  match docSection s with
  | some d => pmMatches d
  | none => []

/-- Tier (c) of the extraction: placemarks found inside the content between
the `<kml …>` tags. -/
def tierKml (s : Str) : List Str :=
  match kmlInner s with
  | some inner => pmMatches inner
  | none => []

/-- Three-tier placemark extraction of the combiner: direct scan, then
document-scoped scan, then root-scoped scan. -/
def extractPlacemarks (s : Str) : List Str :=
  match pmMatches s with
  | [] =>
    match tierDoc s with
    | [] => tierKml s
    | fromDoc => fromDoc
  | direct => direct

/-- Body of the combined document: for each source in order, when its
extraction is nonempty, append a separator and the fragments joined by the
separator (the combiner's accumulation loop). -/
def combineBody : List Str → Str
  | [] => []
  | c :: rest =>
    (match extractPlacemarks c with
     | [] => []
     | ps => sep ++ joinSep sep ps) ++ combineBody rest

/-- The combiner `combineKmlFiles`, over the ordered list of source output
document texts. -/
def combineKmlFiles (contents : List Str) : Str :=
  header ++ combineBody contents ++ footer

/-- Specification-side combiner body that uses only the tier (a) direct
scan, for the refinement claim. -/
def combineBodyDirect : List Str → Str
  | [] => []
  | c :: rest =>
    (match pmMatches c with
     | [] => []
     | ps => sep ++ joinSep sep ps) ++ combineBodyDirect rest

/-- Specification-side combiner that uses only the direct scan. -/
def combineKmlDirect (contents : List Str) : Str :=
  header ++ combineBodyDirect contents ++ footer

/-- Glue form of the combined body: each fragment preceded by one
separator. -/
def sepJoin : List Str → Str
  | [] => []
  | f :: r => sep ++ f ++ sepJoin r

/-- A placemark fragment as produced by the scanner: opening tag, middle
with no earlier closing-tag occurrence, closing tag. -/
def IsFrag (f : Str) : Prop :=
  ∃ mid, f = opn ++ mid ++ cls ∧
    ∀ a b, mid ++ cls = a ++ cls ++ b → mid.length ≤ a.length

/-- The text contains a full placemark pattern occurrence. -/
def HasPM (s : Str) : Prop :=
  ∃ a mid b, s = a ++ opn ++ mid ++ cls ++ b

/-! ## Archive listing validator -/

def shpExt : Str := ".shp".toList

def shxExt : Str := ".shx".toList

def dbfExt : Str := ".dbf".toList

/-- The three file names required for a complete source set of base `base`. -/
def reqList (base : Str) : List Str := [base ++ shpExt, base ++ shxExt, base ++ dbfExt]

/-- One validator report entry: the candidate, which required names are
missing and which were found. -/
structure MComp where
  shapefile : Str
  missing : List Str
  found : List Str
deriving DecidableEq

/-- Lowercased listing entries ending in the primary extension. -/
def shpFilesOf (names : List Str) : List Str :=
  (names.map lowerL).filter (fun f => endsWithB f shpExt)

/-- Required names for one candidate: its base is the name with the first
`.shp` occurrence removed (JavaScript `replace`). -/
def requiredOf (shp : Str) : List Str := reqList (replaceFirst shpExt [] shp)

/-- Required names absent from the lowercased listing. -/
def missingOf (files : List Str) (shp : Str) : List Str :=
  (requiredOf shp).filter (fun r => !(memB (lowerL r) files))

/-- Required names present in the lowercased listing. -/
def foundOf (files : List Str) (shp : Str) : List Str :=
  (requiredOf shp).filter (fun r => memB (lowerL r) files)

/-- The loop body of `validateZipContents`: a report entry when any
required companion is missing. -/
def compOf (files : List Str) (shp : Str) : Option MComp :=
  match missingOf files shp with
  | [] => none
  | _ => some { shapefile := replaceFirst shpExt [] shp ++ shpExt,
                missing := missingOf files shp, found := foundOf files shp }

/-- Per-candidate companion check of `validateZipContents`. -/
def missingComponentsOf (names : List Str) : List MComp :=
  (shpFilesOf names).filterMap (compOf (names.map lowerL))

def noSourceMsg : Str :=
  ("No shapefile (.shp) found in the ZIP file. Please ensure your ZIP contains at least one shapefile.").toList

/-- One bullet block of the validation-failure message. -/
def compMsg (c : MComp) : Str :=
  ("• ").toList ++ c.shapefile ++ (" is missing:\n").toList ++
  ("  Missing: ").toList ++ joinSep (", ").toList c.missing ++
  ("\n  Found: ").toList ++
  (match c.found with
   | [] => ("None").toList
   | fs => joinSep (", ").toList fs) ++ ("\n\n").toList

def valFailMsg (comps : List MComp) : Str :=
  ("Shapefile validation failed:\n\n").toList ++ (comps.map compMsg).flatten ++
  ("A complete shapefile requires: .shp, .shx, and .dbf files with the same base name.").toList

inductive VResult where
  | valid
  | invalid (msg : Str)
deriving DecidableEq

/-- The archive listing validator `validateZipContents`, over the archive's
internal file-name listing. -/
def validateZipContents (names : List Str) : VResult :=
  match shpFilesOf names with
  | [] => .invalid noSourceMsg
  | _ :: _ =>
    match missingComponentsOf names with
    | [] => .valid
    | comps => .invalid (valFailMsg comps)

/-- Validity condition exactly as the claim words it: at least one entry
ends in `.shp`, and for every such entry the `.shx` and `.dbf` names
sharing its base name (the name with the final `.shp` suffix stripped) are
present, case-insensitively. -/
def specClaimC3Valid (names : List Str) : Prop :=
  (∃ f ∈ names.map lowerL, endsWithB f shpExt = true) ∧
  ∀ f ∈ names.map lowerL, endsWithB f shpExt = true →
    memB (f.take (f.length - shpExt.length) ++ shxExt) (names.map lowerL) = true ∧
    memB (f.take (f.length - shpExt.length) ++ dbfExt) (names.map lowerL) = true

/-- Listing whose base name contains `.shp` as an infix: a complete triplet
under suffix-stripping, yet rejected by the implementation. -/
def exListingC3 : List Str :=
  [("a.shpb.shp").toList, ("a.shpb.shx").toList, ("a.shpb.dbf").toList]

/-- The claim's particular listing: `parcels.shp` and `parcels.shx` but no
`parcels.dbf`. -/
def exListingC9 : List Str := [("parcels.shp").toList, ("parcels.shx").toList]

/-- The report entry produced for that listing. -/
def mcompC9 : MComp :=
  { shapefile := ("parcels.shp").toList,
    missing := [("parcels.dbf").toList],
    found := [("parcels.shp").toList, ("parcels.shx").toList] }

/-! ## Input-directory locator -/

/-- One entry of the extraction root: `sub = some files` when the entry is
a directory with the given file names inside, `none` for a plain file. -/
structure DirEntry where
  name : Str
  sub : Option (List Str)
deriving DecidableEq

def isDirB (e : DirEntry) : Bool := e.sub.isSome

/-- The loop's test: the subdirectory contains a file ending in `.shp`. -/
def hasShpB (e : DirEntry) : Bool :=
  match e.sub with
  | some fs => fs.any (fun f => endsWithB f shpExt)
  | none => false

/-- Input-path selection of the orchestrator: start from the extraction
root; when subdirectories exist, the first one containing a `.shp` file
wins.  `none` means the extraction root itself is used; no error is ever
produced. -/
def locateInputDir (entries : List DirEntry) : Option Str :=
  ((entries.filter isDirB).find? hasShpB).map (fun e => e.name)

/-- Root listing with a `.shp` file at the root and a subdirectory that
also holds one. -/
def exEntriesC2 : List DirEntry :=
  [{ name := ("a.shp").toList, sub := none },
   { name := ("sub").toList, sub := some [("b.shp").toList] }]

/-- Root listing with no `.shp` anywhere. -/
def exEntriesC2b : List DirEntry :=
  [{ name := ("a.txt").toList, sub := none },
   { name := ("sub").toList, sub := some [("b.txt").toList] }]

/-! ## Converter diagnostic scanner -/

def valMarker : Str := ("Shapefile validation errors:").toList

def noValidMarker : Str := ("No valid shapefiles found").toList

def filesMarker : Str := ("Files found in the directory:").toList

def bulletPre : Str := ("- ").toList

/-- The marker-section line scan: a line containing the marker (re)opens the
section and is skipped; inside the section, trimmed lines starting with the
bullet prefix are collected; a blank (trimmed-empty) line inside the section
stops the scan; other lines are skipped. -/
def collectBullets (marker : Str) : List Str → Bool → List Str
  | [], _ => []
  | l :: ls, inSec =>
    if containsB l marker then collectBullets marker ls true
    else if inSec && startsWithB (trimL l) bulletPre then
      trimL l :: collectBullets marker ls inSec
    else if inSec && (trimL l).isEmpty then []
    else collectBullets marker ls inSec

def valFailHead : Str := ("Shapefile validation failed:\n").toList

def noValidHead : Str := ("No valid shapefiles found. Files in your ZIP:\n").toList

def noValidTail : Str :=
  ("\n\nPlease ensure your ZIP contains complete shapefiles with .shp, .shx, and .dbf files.").toList

def nlStr : Str := [Char.ofNat 10]

/-- Failure-marker scan of the captured converter output: `some msg` when a
`ConversionError` with message `msg` is raised, `none` when this step raises
nothing. -/
def scanOutput (allOutput : Str) : Option Str :=
  if containsB allOutput valMarker || containsB allOutput noValidMarker then
    some (
      if containsB allOutput valMarker then
        match collectBullets valMarker (splitLines allOutput) false with
        | [] => allOutput
        | errorLines => valFailHead ++ joinSep nlStr errorLines
      else
        match collectBullets filesMarker (splitLines allOutput) false with
        | [] => allOutput
        | fileLines => noValidHead ++ joinSep nlStr fileLines ++ noValidTail)
  else none

/-- Output where the files-listing header precedes the no-valid-sources
marker and no bullet line follows the marker itself. -/
def exOutC5 : Str :=
  ("Files found in the directory:\n- a.txt\nNo valid shapefiles found\n").toList

/-- Output with the validation-error marker followed by one bullet line. -/
def exOutC5w : Str :=
  ("Shapefile validation errors:\n- parcels.shp is missing .dbf\n\nEnd").toList

/-! ## Processing pipeline -/

inductive JStatus where
  | processing
  | completed
  | failed
deriving DecidableEq

/-- The persisted conversion record (fields mutated by the pipeline). -/
structure JobRec where
  originalFileName : Str
  status : JStatus
  kmlFileName : Option Str
  kmlContent : Option Str
  individualFiles : List (Str × Str)
  processedFiles : List Str
  error : Option Str
  completedAtSet : Bool
deriving DecidableEq

/-- Outcomes of the effectful steps of one pipeline run: whether extraction
throws, whether the converter subprocess throws, the captured converter
text, the files present in the output directory afterwards, and whether
each filesystem removal succeeds (success-path removals `rm…`, error-path
cleanup removals `cRm…`). -/
structure Env where
  extractOk : Bool
  dirEntries : List DirEntry
  pyThrow : Option Str
  pyOutput : Str
  outFiles : List (Str × Str)
  rmExtract : Bool
  rmOutput : Bool
  rmUpload : Bool
  cRmExtract : Bool
  cRmOutput : Bool
  cRmUpload : Bool
deriving DecidableEq

/-- Result of a run: final record, sequence of record updates persisted by
the run (statuses written), and the final filesystem state. -/
structure RunResult where
  jrec : JobRec
  writes : List JStatus
  fs : List Str
deriving DecidableEq

def kmlExt : Str := ".kml".toList

def zipExt : Str := ".zip".toList

def tempDirPre : Str := "temp/".toList

def outDirPre : Str := "output/".toList

def uploadsPre : Str := "uploads/".toList

def tempPath (cid : Str) : Str := tempDirPre ++ cid

def outPath (cid : Str) : Str := outDirPre ++ cid

def uploadPath (name : Str) : Str := uploadsPre ++ name

def removeFS (fs : List Str) (p : Str) : List Str := fs.filter (fun q => !(q == p))

def insertFS (fs : List Str) (p : Str) : List Str :=
  if memB p fs then fs else fs ++ [p]

def combinedPre : Str := "combined_".toList

/-- `originalFileName.replace(/\.zip$/, '.kml')`. -/
def zipToKml (s : Str) : Str :=
  if endsWithB s zipExt then s.take (s.length - zipExt.length) ++ kmlExt else s

def msgExtractFail : Str := "zip extraction failed".toList

def msgPyFail : Str := "Failed to execute shapefile conversion script".toList

def msgNoKml : Str := "No KML files generated".toList

def msgRmFail : Str := "workspace remove failed".toList

/-- Fresh record as created by the upload handler. -/
def initialRec (origName : Str) : JobRec :=
  { originalFileName := origName, status := .processing, kmlFileName := none,
    kmlContent := none, individualFiles := [], processedFiles := [],
    error := none, completedAtSet := false }

/-- The catch-block cleanup: removes the extraction workspace, the output
directory, and `uploads/<originalFileName>` (the name the handler joins, not
the stored upload path), in one try whose failure is swallowed; a throw
skips the remaining removals. -/
def failCleanup (env : Env) (cid origName : Str) (fs : List Str) : List Str :=
  if !env.cRmExtract then fs
  else
    let f1 := removeFS fs (tempPath cid)
    if !env.cRmOutput then f1
    else
      let f2 := removeFS f1 (outPath cid)
      if !env.cRmUpload then f2
      else removeFS f2 (uploadPath origName)

/-- The catch block: persist `status = failed` with the error message onto
the current record, then run the swallowed cleanup. -/
def failWith (env : Env) (cid origName msg : Str) (r : JobRec)
    (w : List JStatus) (fs : List Str) : RunResult :=
  { jrec := { r with status := .failed, error := some msg, completedAtSet := true },
    writes := w ++ [JStatus.failed],
    fs := failCleanup env cid origName fs }

/-- Success-path epilogue: after the COMPLETED update, remove the
extraction workspace, the output directory and the stored upload in order;
any throw lands in the catch block with the COMPLETED write already
persisted. -/
def finishRemoves (env : Env) (cid origName storedName : Str) (r1 : JobRec)
    (fs2 : List Str) : RunResult :=
  if !env.rmExtract then failWith env cid origName msgRmFail r1 [JStatus.completed] fs2
  else
    let fs3 := removeFS fs2 (tempPath cid)
    if !env.rmOutput then failWith env cid origName msgRmFail r1 [JStatus.completed] fs3
    else
      let fs4 := removeFS fs3 (outPath cid)
      if !env.rmUpload then failWith env cid origName msgRmFail r1 [JStatus.completed] fs4
      else { jrec := r1, writes := [JStatus.completed], fs := removeFS fs4 (uploadPath storedName) }

/-- One `processShapefile` run: extraction, input-directory location,
converter invocation, diagnostic scan, output collection, combination,
COMPLETED update and reclamation, with every failure routed through the
catch block. -/
def runPipeline (env : Env) (cid origName storedName : Str) (fs0 : List Str) : RunResult :=
  let fs1 := insertFS fs0 (tempPath cid)
  if !env.extractOk then failWith env cid origName msgExtractFail (initialRec origName) [] fs1
  else
    let inputSel := locateInputDir env.dirEntries
    let fs2 := insertFS fs1 (outPath cid)
    match env.pyThrow with
    | some _ => failWith env cid origName msgPyFail (initialRec origName) [] fs2
    | none =>
      match inputSel, scanOutput env.pyOutput with
      | _, some emsg => failWith env cid origName emsg (initialRec origName) [] fs2
      | _, none =>
        match env.outFiles.filter (fun f => endsWithB f.1 kmlExt) with
        | [] => failWith env cid origName msgNoKml (initialRec origName) [] fs2
        | f :: rest =>
          let kName := if rest.isEmpty then f.1 else combinedPre ++ zipToKml origName
          let kContent := if rest.isEmpty then f.2
                          else combineKmlFiles ((f :: rest).map (fun x => x.2))
          let r1 : JobRec :=
            { originalFileName := origName, status := .completed,
              kmlFileName := some kName, kmlContent := some kContent,
              individualFiles := f :: rest,
              processedFiles := (f :: rest).map (fun x => x.1),
              error := none, completedAtSet := true }
          finishRemoves env cid origName storedName r1 fs2

/-! ## Download endpoints -/

inductive DlOut where
  | httpError (code : Nat) (msg : Str)
  | file (name : Str) (content : Str)
  | bundle (name : Str) (entries : List (Str × Str))
deriving DecidableEq

def msgNotFound : Str := "Conversion not found".toList

def msgNotCompleted : Str := "Conversion not completed".toList

def msgFileNotFound : Str := "File not found".toList

def allFilesSuffix : Str := "_all_files.zip".toList

/-- `GET /api/download/:id` — the combined output. -/
def downloadCombined (q : Option JobRec) : DlOut :=
  match q with
  | none => .httpError 404 msgNotFound
  | some r =>
    if r.status ≠ .completed then .httpError 400 msgNotCompleted
    else .file (r.kmlFileName.getD []) (r.kmlContent.getD [])

/-- `GET /api/download/:id/:filename` — one named source output. -/
def downloadIndividual (q : Option JobRec) (fname : Str) : DlOut :=
  match q with
  | none => .httpError 404 msgNotFound
  | some r =>
    if r.status ≠ .completed then .httpError 400 msgNotCompleted
    else
      match r.individualFiles.find? (fun x => x.1 == fname) with
      | none => .httpError 404 msgFileNotFound
      | some x => .file x.1 x.2

/-- `GET /api/download-all/:id` — the bundled archive: the combined file
when its content is truthy, then every individual file. -/
def downloadAll (q : Option JobRec) : DlOut :=
  match q with
  | none => .httpError 404 msgNotFound
  | some r =>
    if r.status ≠ .completed then .httpError 400 msgNotCompleted
    else
      let entries :=
        (match r.kmlContent with
         | some c => if c.isEmpty then [] else [(r.kmlFileName.getD [], c)]
         | none => []) ++ r.individualFiles
      .bundle (replaceFirst zipExt [] r.originalFileName ++ allFilesSuffix) entries

/-! ## Concrete scenario constants -/

/-- Captured converter text containing no failure marker. -/
def okOut : Str := "Converting shapefile to KML...".toList

def cid1 : Str := "c1".toList

def orig1 : Str := "data.zip".toList

/-- Stored upload name as produced by the upload handler: a unique id, an
underscore, then the original name. -/
def stored1 : Str := "u1_data.zip".toList

/-- Environment of a run whose conversion succeeds with a single output
file, but whose success-path removal of the extraction workspace throws. -/
def envRmFail : Env :=
  { extractOk := true, dirEntries := [], pyThrow := none, pyOutput := okOut,
    outFiles := [(("a.kml").toList, ("x").toList)],
    rmExtract := false, rmOutput := true, rmUpload := true,
    cRmExtract := true, cRmOutput := true, cRmUpload := true }

/-- Environment of a run whose converter invocation throws. -/
def envPyFail : Env :=
  { extractOk := true, dirEntries := [], pyThrow := some ("boom").toList,
    pyOutput := okOut, outFiles := [],
    rmExtract := true, rmOutput := true, rmUpload := true,
    cRmExtract := true, cRmOutput := true, cRmUpload := true }

/-- Environment of a fully successful run with a single output file. -/
def envOk : Env :=
  { extractOk := true, dirEntries := [], pyThrow := none, pyOutput := okOut,
    outFiles := [(("a.kml").toList, ("x").toList)],
    rmExtract := true, rmOutput := true, rmUpload := true,
    cRmExtract := true, cRmOutput := true, cRmUpload := true }

/-- A record still in processing, for the download witnesses. -/
def procRec : JobRec := initialRec orig1

/-- Text with no placemark pattern, for the extraction witnesses. -/
def exNoPm : Str := "<kml><Document><name>empty</name></Document></kml>".toList

instance (names : List Str) : Decidable (specClaimC3Valid names) := by
  unfold specClaimC3Valid
  infer_instance

/-! ## Theorems: first-occurrence scanning infrastructure -/

theorem isPrefB_iff (p : Str) : ∀ s, isPrefB p s = true ↔ ∃ t, p ++ t = s := by
  induction p with
  | nil => intro s; simp [isPrefB]
  | cons a p ih =>
    intro s
    cases s with
    | nil => simp [isPrefB]
    | cons b s =>
      simp only [isPrefB, Bool.and_eq_true, beq_iff_eq, ih, List.cons_append,
        List.cons.injEq]
      constructor
      · rintro ⟨rfl, t, rfl⟩
        exact ⟨t, rfl, rfl⟩
      · rintro ⟨t, rfl, rfl⟩
        exact ⟨rfl, t, rfl⟩

theorem isPrefB_len {p s : Str} (h : isPrefB p s = true) : p.length ≤ s.length := by
  obtain ⟨t, rfl⟩ := (isPrefB_iff p s).mp h
  simp

theorem isPrefB_append_of_le (p : Str) :
    ∀ u, p.length ≤ u.length → ∀ v, isPrefB p (u ++ v) = isPrefB p u := by
  induction p with
  | nil => intro u _ v; simp [isPrefB]
  | cons a p ih =>
    intro u hu v
    cases u with
    | nil => simp at hu
    | cons b u =>
      simp only [List.length_cons, Nat.succ_le_succ_iff] at hu
      simp [isPrefB, ih u hu v]

theorem splitFirst_cons_pos {p : Str} {c : Char} {t : Str}
    (hp : isPrefB p (c :: t) = true) :
    splitFirst p (c :: t) = some ([], (c :: t).drop p.length) := by
  simp [splitFirst, hp]

theorem splitFirst_cons_neg {p : Str} {c : Char} {t : Str}
    (hp : isPrefB p (c :: t) = false) :
    splitFirst p (c :: t) = (splitFirst p t).map (fun ab => (c :: ab.1, ab.2)) := by
  simp [splitFirst, hp]

theorem splitFirst_nil_of_ne {p : Str} (hp : p ≠ []) : splitFirst p [] = none := by
  cases p with
  | nil => exact absurd rfl hp
  | cons a q => simp [splitFirst, isPrefB]

theorem splitFirst_of_isPrefB {p : Str} : ∀ {t : Str}, isPrefB p t = true →
    splitFirst p t = some ([], t.drop p.length) := by
  intro t h
  cases t with
  | nil =>
    obtain ⟨u, hu⟩ := (isPrefB_iff p []).mp h
    have hp0 : p = [] := (List.append_eq_nil.mp hu).1
    subst hp0
    rfl
  | cons c t' => exact splitFirst_cons_pos h

theorem splitFirst_eq_some (p : Str) :
    ∀ s a b, splitFirst p s = some (a, b) → s = a ++ p ++ b := by
  intro s
  induction s with
  | nil =>
    intro a b h
    cases hp : isPrefB p [] with
    | false =>
      obtain ⟨q, hq⟩ : ∃ q, p = q := ⟨p, rfl⟩
      cases q with
      | nil => rw [hq] at hp; simp [isPrefB] at hp
      | cons x xs =>
        rw [hq, splitFirst_nil_of_ne (by simp)] at h
        simp at h
    | true =>
      obtain ⟨u, hu⟩ := (isPrefB_iff p []).mp hp
      have hp0 : p = [] := (List.append_eq_nil.mp hu).1
      subst hp0
      simp only [splitFirst, isPrefB, if_true] at h
      simp only [Option.some.injEq, Prod.mk.injEq] at h
      obtain ⟨rfl, rfl⟩ := h
      rfl
  | cons c t ih =>
    intro a b h
    cases hp : isPrefB p (c :: t) with
    | true =>
      rw [splitFirst_cons_pos hp] at h
      simp only [Option.some.injEq, Prod.mk.injEq] at h
      obtain ⟨rfl, rfl⟩ := h
      obtain ⟨u, hu⟩ := (isPrefB_iff p (c :: t)).mp hp
      rw [← hu, List.drop_left]
      simp
    | false =>
      rw [splitFirst_cons_neg hp] at h
      cases hsf : splitFirst p t with
      | none => rw [hsf] at h; exact Option.noConfusion h
      | some ab =>
        obtain ⟨a0, b0⟩ := ab
        rw [hsf] at h
        simp only [Option.map_some', Option.some.injEq, Prod.mk.injEq] at h
        obtain ⟨rfl, rfl⟩ := h
        have := ih a0 b0 hsf
        subst this
        simp

theorem splitFirst_isSome (p b : Str) : ∀ a, (splitFirst p (a ++ p ++ b)).isSome = true := by
  intro a
  induction a with
  | nil =>
    simp only [List.nil_append]
    have hp : isPrefB p (p ++ b) = true := (isPrefB_iff p (p ++ b)).mpr ⟨b, rfl⟩
    rw [splitFirst_of_isPrefB hp]
    rfl
  | cons c a' ih =>
    have hsh : (c :: a') ++ p ++ b = c :: (a' ++ p ++ b) := by simp
    rw [hsh]
    cases hp : isPrefB p (c :: (a' ++ p ++ b)) with
    | true => rw [splitFirst_cons_pos hp]; rfl
    | false =>
      rw [splitFirst_cons_neg hp]
      obtain ⟨ab, hab⟩ := Option.isSome_iff_exists.mp ih
      rw [hab]
      rfl

theorem splitFirst_min (p : Str) :
    ∀ s a b, splitFirst p s = some (a, b) →
      ∀ a' b', s = a' ++ p ++ b' → a.length ≤ a'.length := by
  intro s
  induction s with
  | nil =>
    intro a b h a' b' _
    cases hq : p with
    | nil =>
      subst hq
      simp only [splitFirst, isPrefB, if_true] at h
      simp only [Option.some.injEq, Prod.mk.injEq] at h
      obtain ⟨rfl, rfl⟩ := h
      simp
    | cons x xs =>
      rw [hq] at h
      rw [splitFirst_nil_of_ne (by simp)] at h
      simp at h
  | cons c t ih =>
    intro a b h a' b' he
    cases hp : isPrefB p (c :: t) with
    | true =>
      rw [splitFirst_cons_pos hp] at h
      simp only [Option.some.injEq, Prod.mk.injEq] at h
      obtain ⟨rfl, rfl⟩ := h
      simp
    | false =>
      rw [splitFirst_cons_neg hp] at h
      cases hsf : splitFirst p t with
      | none => rw [hsf] at h; exact Option.noConfusion h
      | some ab =>
        obtain ⟨a0, b0⟩ := ab
        rw [hsf] at h
        simp only [Option.map_some', Option.some.injEq, Prod.mk.injEq] at h
        obtain ⟨rfl, rfl⟩ := h
        cases a' with
        | nil =>
          exfalso
          rw [List.nil_append] at he
          have hpre : isPrefB p (c :: t) = true :=
            (isPrefB_iff p (c :: t)).mpr ⟨b', he.symm⟩
          rw [hp] at hpre
          exact Bool.false_ne_true hpre
        | cons c' a'' =>
          have he' : t = a'' ++ p ++ b' := by
            have h2 : c = c' ∧ t = a'' ++ p ++ b' := by
              constructor
              · exact (List.cons.injEq .. ▸ he).1
              · exact (List.cons.injEq .. ▸ he).2
            exact h2.2
          simpa using Nat.succ_le_succ (ih a0 b0 hsf a'' b' he')

theorem splitFirst_skip (p : Str) :
    ∀ g t, (∀ g1 g2, g = g1 ++ g2 → g2 ≠ [] → isPrefB p (g2 ++ t) = false) →
      splitFirst p (g ++ t) = (splitFirst p t).map (fun ab => (g ++ ab.1, ab.2)) := by
  intro g
  induction g with
  | nil =>
    intro t _
    simp only [List.nil_append]
    cases hsf : splitFirst p t with
    | none => rfl
    | some ab => simp
  | cons c g' ih =>
    intro t h
    have h0 : isPrefB p ((c :: g') ++ t) = false := h [] (c :: g') rfl (by simp)
    have hsh : (c :: g') ++ t = c :: (g' ++ t) := by simp
    rw [hsh] at h0 ⊢
    rw [splitFirst_cons_neg h0]
    rw [ih t (fun g1 g2 hg hne => h (c :: g1) g2 (by rw [hg]; rfl) hne)]
    cases splitFirst p t with
    | none => rfl
    | some ab => simp

theorem splitFirst_glue (p g r : Str)
    (h : ∀ g1 g2, g = g1 ++ g2 → g2 ≠ [] → isPrefB p (g2 ++ (p ++ r)) = false) :
    splitFirst p (g ++ p ++ r) = some (g, r) := by
  rw [List.append_assoc, splitFirst_skip p g (p ++ r) h,
    splitFirst_of_isPrefB ((isPrefB_iff p (p ++ r)).mpr ⟨r, rfl⟩)]
  simp [List.drop_left]

theorem noEarlyB_spec {p g nxt : Str} (hb : noEarlyB p g nxt = true)
    (hlen : p.length ≤ nxt.length + 1) {t : Str} (r : Str) (ht : t = nxt ++ r) :
    ∀ g1 g2, g = g1 ++ g2 → g2 ≠ [] → isPrefB p (g2 ++ t) = false := by
  intro g1 g2 hg hne
  have hmem : g2 ∈ g.tails := (List.mem_tails g2 g).mpr ⟨g1, hg.symm⟩
  have hall := List.all_eq_true.mp hb g2 hmem
  have hne' : g2.isEmpty = false := by
    cases g2 with
    | nil => exact absurd rfl hne
    | cons x xs => rfl
  rw [hne'] at hall
  simp only [Bool.false_or, Bool.not_eq_true'] at hall
  subst ht
  rw [← List.append_assoc]
  rw [isPrefB_append_of_le p (g2 ++ nxt) (by
    have h1 : 1 ≤ g2.length := by
      cases g2 with
      | nil => exact absurd rfl hne
      | cons x xs => simp
    simp only [List.length_append]
    omega) r]
  exact hall

theorem splitFirst_len {p s a b : Str} (h : splitFirst p s = some (a, b)) :
    s.length = a.length + p.length + b.length := by
  have := splitFirst_eq_some p s a b h
  subst this
  simp [List.length_append]
  omega

/-! ## Theorems: the placemark scanner -/

theorem pmMatchesF_of_none {s : Str} (h : splitFirst opn s = none) :
    ∀ m, pmMatchesF m s = [] := by
  intro m
  cases m with
  | zero => rfl
  | succ n => simp [pmMatchesF, h]

theorem pmMatchesF_of_none2 {s a r1 : Str} (h : splitFirst opn s = some (a, r1))
    (h2 : splitFirst cls r1 = none) : ∀ m, pmMatchesF m s = [] := by
  intro m
  cases m with
  | zero => rfl
  | succ n => simp [pmMatchesF, h, h2]

theorem pmMatchesF_congr : ∀ n m s, s.length ≤ n → s.length ≤ m →
    pmMatchesF n s = pmMatchesF m s := by
  intro n
  induction n using Nat.strong_induction_on with
  | _ n ih =>
    intro m s hn hm
    cases n with
    | zero =>
      have hs : s = [] := List.length_eq_zero.mp (Nat.le_zero.mp hn)
      subst hs
      rw [pmMatchesF_of_none (by decide) m]
      rfl
    | succ n' =>
      cases m with
      | zero =>
        have hs : s = [] := List.length_eq_zero.mp (Nat.le_zero.mp hm)
        subst hs
        rw [pmMatchesF_of_none (by decide) (n' + 1)]
        rfl
      | succ m' =>
        cases h1 : splitFirst opn s with
        | none => rw [pmMatchesF_of_none h1, pmMatchesF_of_none h1]
        | some ar =>
          obtain ⟨a, r1⟩ := ar
          cases h2 : splitFirst cls r1 with
          | none => rw [pmMatchesF_of_none2 h1 h2, pmMatchesF_of_none2 h1 h2]
          | some mr =>
            obtain ⟨mid, r2⟩ := mr
            have l1 := splitFirst_len h1
            have l2 := splitFirst_len h2
            have ho : 1 ≤ opn.length := by decide
            have hc : 1 ≤ cls.length := by decide
            have hr2n : r2.length ≤ n' := by omega
            have hr2m : r2.length ≤ m' := by omega
            simp only [pmMatchesF, h1, h2]
            rw [ih n' (Nat.lt_succ_self n') m' r2 hr2n hr2m]

theorem pmMatches_unfold (s : Str) :
    pmMatches s =
      match splitFirst opn s with
      | none => []
      | some ar =>
        match splitFirst cls ar.2 with
        | none => []
        | some mr => (opn ++ mr.1 ++ cls) :: pmMatches mr.2 := by
  cases h1 : splitFirst opn s with
  | none => exact pmMatchesF_of_none h1 s.length
  | some ar =>
    obtain ⟨a, r1⟩ := ar
    show pmMatches s =
      match splitFirst cls r1 with
      | none => []
      | some mr => (opn ++ mr.1 ++ cls) :: pmMatches mr.2
    cases h2 : splitFirst cls r1 with
    | none => exact pmMatchesF_of_none2 h1 h2 s.length
    | some mr =>
      obtain ⟨mid, r2⟩ := mr
      show pmMatches s = (opn ++ mid ++ cls) :: pmMatches r2
      have l1 := splitFirst_len h1
      have l2 := splitFirst_len h2
      have ho : 1 ≤ opn.length := by decide
      have hc : 1 ≤ cls.length := by decide
      obtain ⟨k, hk⟩ : ∃ k, s.length = k + 1 := ⟨s.length - 1, by omega⟩
      have hstep : pmMatches s = (opn ++ mid ++ cls) :: pmMatchesF k r2 := by
        show pmMatchesF s.length s = _
        rw [hk]
        simp only [pmMatchesF, h1, h2]
      rw [hstep, pmMatchesF_congr k r2.length r2 (by omega) (Nat.le_refl _)]
      rfl

theorem pmMatches_eq_nil_of_none {s : Str} (h1 : splitFirst opn s = none) :
    pmMatches s = [] := pmMatchesF_of_none h1 s.length

theorem pmMatches_eq_nil_of_none2 {s a r1 : Str} (h1 : splitFirst opn s = some (a, r1))
    (h2 : splitFirst cls r1 = none) : pmMatches s = [] := pmMatchesF_of_none2 h1 h2 s.length

theorem pmMatches_eq_cons {s a r1 mid r2 : Str} (h1 : splitFirst opn s = some (a, r1))
    (h2 : splitFirst cls r1 = some (mid, r2)) :
    pmMatches s = (opn ++ mid ++ cls) :: pmMatches r2 := by
  have l1 := splitFirst_len h1
  have l2 := splitFirst_len h2
  have ho : 1 ≤ opn.length := by decide
  have hc : 1 ≤ cls.length := by decide
  obtain ⟨k, hk⟩ : ∃ k, s.length = k + 1 := ⟨s.length - 1, by omega⟩
  have hstep : pmMatches s = (opn ++ mid ++ cls) :: pmMatchesF k r2 := by
    show pmMatchesF s.length s = _
    rw [hk]
    simp only [pmMatchesF, h1, h2]
  rw [hstep, pmMatchesF_congr k r2.length r2 (by omega) (Nat.le_refl _)]
  rfl

theorem pmMatches_frag_aux : ∀ n s, s.length ≤ n → ∀ f ∈ pmMatches s, IsFrag f := by
  intro n
  induction n using Nat.strong_induction_on with
  | _ n ih =>
    intro s hs f hf
    cases h1 : splitFirst opn s with
    | none =>
      rw [pmMatches_eq_nil_of_none h1] at hf
      simp at hf
    | some ar =>
      obtain ⟨a, r1⟩ := ar
      cases h2 : splitFirst cls r1 with
      | none =>
        rw [pmMatches_eq_nil_of_none2 h1 h2] at hf
        simp at hf
      | some mr =>
        obtain ⟨mid, r2⟩ := mr
        rw [pmMatches_eq_cons h1 h2] at hf
        have l1 := splitFirst_len h1
        have l2 := splitFirst_len h2
        have ho : 1 ≤ opn.length := by decide
        have hc : 1 ≤ cls.length := by decide
        rcases List.mem_cons.mp hf with he | ht
        · subst he
          refine ⟨mid, rfl, ?_⟩
          intro x y hxy
          have hr1 : r1 = x ++ cls ++ (y ++ r2) := by
            have hr := splitFirst_eq_some cls r1 mid r2 h2
            rw [hr, show mid ++ cls ++ r2 = (mid ++ cls) ++ r2 from by simp, hxy]
            simp
          exact splitFirst_min cls r1 mid r2 h2 x (y ++ r2) hr1
        · cases n with
          | zero =>
            have hnil : s = [] := List.length_eq_zero.mp (Nat.le_zero.mp hs)
            subst hnil
            rw [splitFirst_nil_of_ne (by decide)] at h1
            exact Option.noConfusion h1
          | succ n' =>
            exact ih n' (Nat.lt_succ_self n') r2 (by omega) f ht

theorem pmMatches_frag {s : Str} : ∀ f ∈ pmMatches s, IsFrag f :=
  pmMatches_frag_aux s.length s (Nat.le_refl _)

theorem pm_step (g f T : Str) (hg : noEarlyB opn g opn = true) (hf : IsFrag f) :
    pmMatches (g ++ f ++ T) = f :: pmMatches T := by
  obtain ⟨mid, rfl, hmin⟩ := hf
  have h1 : splitFirst opn (g ++ (opn ++ mid ++ cls) ++ T) = some (g, mid ++ cls ++ T) := by
    rw [show g ++ (opn ++ mid ++ cls) ++ T = g ++ opn ++ (mid ++ cls ++ T) from by simp]
    exact splitFirst_glue opn g (mid ++ cls ++ T)
      (noEarlyB_spec hg (by decide) (mid ++ cls ++ T) rfl)
  have h2 : splitFirst cls (mid ++ cls ++ T) = some (mid, T) := by
    rw [List.append_assoc]
    rw [show mid ++ (cls ++ T) = mid ++ cls ++ T from by simp] at *
    apply splitFirst_glue
    intro m1 m2 hm hne
    by_contra hcon
    rw [Bool.not_eq_false] at hcon
    have hlen2 : cls.length ≤ (m2 ++ cls).length := by
      simp only [List.length_append]
      omega
    rw [show m2 ++ (cls ++ T) = (m2 ++ cls) ++ T from by simp] at hcon
    rw [isPrefB_append_of_le cls (m2 ++ cls) hlen2 T] at hcon
    obtain ⟨w, hw⟩ := (isPrefB_iff cls (m2 ++ cls)).mp hcon
    have hdec : mid ++ cls = m1 ++ cls ++ w := by
      rw [hm, show (m1 ++ m2) ++ cls = m1 ++ (m2 ++ cls) from by simp, ← hw]
      simp
    have hle := hmin m1 w hdec
    have hm2 : 1 ≤ m2.length := by
      cases m2 with
      | nil => exact absurd rfl hne
      | cons x xs => simp
    have hlenmid : mid.length = m1.length + m2.length := by
      rw [hm]
      simp [List.length_append]
    omega
  exact pmMatches_eq_cons h1 h2

theorem pm_body : ∀ fs : List Str, (∀ f ∈ fs, IsFrag f) →
    pmMatches (sepJoin fs ++ footer) = fs := by
  intro fs
  induction fs with
  | nil =>
    intro _
    show pmMatches ([] ++ footer) = []
    rw [List.nil_append]
    decide
  | cons f r ih =>
    intro h
    have hstep : sepJoin (f :: r) ++ footer = sep ++ f ++ (sepJoin r ++ footer) := by
      show (sep ++ f ++ sepJoin r) ++ footer = _
      simp
    rw [hstep, pm_step sep f (sepJoin r ++ footer) (by decide) (h f (by simp))]
    rw [ih (fun f' hf' => h f' (by simp [hf']))]

theorem pm_main (fs : List Str) (h : ∀ f ∈ fs, IsFrag f) :
    pmMatches (header ++ sepJoin fs ++ footer) = fs := by
  cases fs with
  | nil =>
    show pmMatches (header ++ sepJoin [] ++ footer) = []
    decide
  | cons f r =>
    have hstep : header ++ sepJoin (f :: r) ++ footer =
        (header ++ sep) ++ f ++ (sepJoin r ++ footer) := by
      show header ++ (sep ++ f ++ sepJoin r) ++ footer = _
      simp
    rw [hstep, pm_step (header ++ sep) f (sepJoin r ++ footer) (by decide) (h f (by simp))]
    rw [pm_body r (fun f' hf' => h f' (by simp [hf']))]

theorem split_at_le : ∀ (u : List Char) {v x y : List Char}, u ++ v = x ++ y →
    u.length ≤ x.length → ∃ w, x = u ++ w ∧ v = w ++ y := by
  intro u
  induction u with
  | nil =>
    intro v x y h _
    exact ⟨x, by simp, by simp [← h]⟩
  | cons a u' ih =>
    intro v x y h hle
    cases x with
    | nil => simp at hle
    | cons b x' =>
      have h1 : a = b ∧ u' ++ v = x' ++ y := by
        have h' : a :: (u' ++ v) = b :: (x' ++ y) := by simpa using h
        exact ⟨(List.cons.injEq .. ▸ h').1, (List.cons.injEq .. ▸ h').2⟩
      obtain ⟨w, hw1, hw2⟩ := ih h1.2 (by simpa using hle)
      exact ⟨w, by simp [h1.1, hw1], hw2⟩

theorem hasPM_of_ne_nil {s : Str} (h : pmMatches s ≠ []) : HasPM s := by
  cases h1 : splitFirst opn s with
  | none => rw [pmMatches_eq_nil_of_none h1] at h; exact absurd rfl h
  | some ar =>
    obtain ⟨a, r1⟩ := ar
    cases h2 : splitFirst cls r1 with
    | none => rw [pmMatches_eq_nil_of_none2 h1 h2] at h; exact absurd rfl h
    | some mr =>
      obtain ⟨mid, r2⟩ := mr
      have e1 := splitFirst_eq_some opn s a r1 h1
      have e2 := splitFirst_eq_some cls r1 mid r2 h2
      exact ⟨a, mid, r2, by rw [e1, e2]; simp⟩

theorem pm_ne_nil_of_hasPM {s : Str} (h : HasPM s) : pmMatches s ≠ [] := by
  obtain ⟨a, mid, b, rfl⟩ := h
  have hsome1 : (splitFirst opn (a ++ opn ++ mid ++ cls ++ b)).isSome = true := by
    have hs := splitFirst_isSome opn (mid ++ cls ++ b) a
    rw [show a ++ opn ++ (mid ++ cls ++ b) = a ++ opn ++ mid ++ cls ++ b from by simp] at hs
    exact hs
  obtain ⟨ar, h1⟩ := Option.isSome_iff_exists.mp hsome1
  obtain ⟨a0, r1⟩ := ar
  have e1 := splitFirst_eq_some opn _ a0 r1 h1
  have hm := splitFirst_min opn _ a0 r1 h1 a (mid ++ cls ++ b) (by simp)
  have key : ∃ w, a ++ opn ++ mid = (a0 ++ opn) ++ w ∧ r1 = w ++ (cls ++ b) := by
    apply split_at_le
    · rw [show (a0 ++ opn) ++ r1 = a0 ++ opn ++ r1 from by simp, ← e1]
      simp
    · simp only [List.length_append]
      omega
  obtain ⟨w, hw1, hw2⟩ := key
  have hsome2 : (splitFirst cls r1).isSome = true := by
    rw [hw2, show w ++ (cls ++ b) = w ++ cls ++ b from by simp]
    exact splitFirst_isSome cls b w
  obtain ⟨mr, h2⟩ := Option.isSome_iff_exists.mp hsome2
  obtain ⟨m0, r2⟩ := mr
  rw [pmMatches_eq_cons h1 h2]
  simp

theorem hasPM_within {t s : Str} (h : HasPM t) (x y : Str) (hxy : s = x ++ t ++ y) :
    HasPM s := by
  obtain ⟨a, mid, b, rfl⟩ := h
  exact ⟨x ++ a, mid, b ++ y, by rw [hxy]; simp⟩

theorem docSection_within {s d : Str} (h : docSection s = some d) :
    ∃ x y, s = x ++ d ++ y := by
  cases h1 : splitFirst docOpen s with
  | none =>
    simp only [docSection, h1] at h
    exact Option.noConfusion h
  | some ar =>
    obtain ⟨a, r1⟩ := ar
    cases h2 : splitFirst docClose r1 with
    | none =>
      simp only [docSection, h1, h2] at h
      exact Option.noConfusion h
    | some mr =>
      obtain ⟨mid, r2⟩ := mr
      simp only [docSection, h1, h2, Option.some.injEq] at h
      have e1 := splitFirst_eq_some docOpen s a r1 h1
      have e2 := splitFirst_eq_some docClose r1 mid r2 h2
      refine ⟨a, r2, ?_⟩
      rw [e1, e2, ← h]
      simp

theorem kmlInnerF_within : ∀ n s inner, kmlInnerF n s = some inner →
    ∃ x y, s = x ++ inner ++ y := by
  intro n
  induction n with
  | zero => intro s inner h; exact Option.noConfusion h
  | succ n ih =>
    intro s inner h
    cases h1 : splitFirst kmlOpen s with
    | none =>
      simp only [kmlInnerF, h1] at h
      exact Option.noConfusion h
    | some ar =>
      obtain ⟨a, r1⟩ := ar
      have e1 := splitFirst_eq_some kmlOpen s a r1 h1
      cases hdw : r1.dropWhile (fun c => !(c == '>')) with
      | nil =>
        simp only [kmlInnerF, h1, hdw] at h
        exact Option.noConfusion h
      | cons c r2 =>
        cases h2 : splitFirst kmlClose r2 with
        | none =>
          simp only [kmlInnerF, h1, hdw, h2] at h
          obtain ⟨x, y, hxy⟩ := ih r1 inner h
          exact ⟨a ++ kmlOpen ++ x, y, by rw [e1, hxy]; simp⟩
        | some ir =>
          obtain ⟨i0, r3⟩ := ir
          simp only [kmlInnerF, h1, hdw, h2, Option.some.injEq] at h
          have e2 := splitFirst_eq_some kmlClose r2 i0 r3 h2
          obtain ⟨tw, htw⟩ : ∃ tw, r1.takeWhile (fun c => !(c == '>')) = tw := ⟨_, rfl⟩
          have hr1 : r1 = tw ++ (c :: r2) := by
            rw [← htw, ← hdw]
            exact (@List.takeWhile_append_dropWhile _ (fun c => !(c == '>')) r1).symm
          refine ⟨a ++ kmlOpen ++ tw ++ [c], kmlClose ++ r3, ?_⟩
          rw [e1, hr1, e2, ← h]
          simp

theorem kmlInner_within {s inner : Str} (h : kmlInner s = some inner) :
    ∃ x y, s = x ++ inner ++ y := kmlInnerF_within s.length s inner h

theorem extract_eq_direct (s : Str) : extractPlacemarks s = pmMatches s := by
  cases hd : pmMatches s with
  | cons f r => simp [extractPlacemarks, hd]
  | nil =>
    have hnSelf : ¬ HasPM s := fun hpm => pm_ne_nil_of_hasPM hpm hd
    have htd : tierDoc s = [] := by
      unfold tierDoc
      cases hds : docSection s with
      | none => rfl
      | some d =>
        cases hpd : pmMatches d with
        | nil => exact hpd
        | cons f r =>
          exfalso
          obtain ⟨x, y, hxy⟩ := docSection_within hds
          exact hnSelf (hasPM_within (hasPM_of_ne_nil (by simp [hpd])) x y hxy)
    have htk : tierKml s = [] := by
      unfold tierKml
      cases hks : kmlInner s with
      | none => rfl
      | some inner =>
        cases hpi : pmMatches inner with
        | nil => exact hpi
        | cons f r =>
          exfalso
          obtain ⟨x, y, hxy⟩ := kmlInner_within hks
          exact hnSelf (hasPM_within (hasPM_of_ne_nil (by simp [hpi])) x y hxy)
    simp [extractPlacemarks, hd, htd, htk]

theorem sepJoin_append : ∀ xs ys : List Str, sepJoin (xs ++ ys) = sepJoin xs ++ sepJoin ys := by
  intro xs ys
  induction xs with
  | nil => simp [sepJoin]
  | cons f r ih =>
    show sep ++ f ++ sepJoin (r ++ ys) = (sep ++ f ++ sepJoin r) ++ sepJoin ys
    rw [ih]
    simp

theorem sepChunk_eq : ∀ ps : List Str, ps ≠ [] → sep ++ joinSep sep ps = sepJoin ps := by
  intro ps
  induction ps with
  | nil => intro h; exact absurd rfl h
  | cons f r ih =>
    intro _
    cases r with
    | nil =>
      show sep ++ joinSep sep [f] = sep ++ f ++ sepJoin []
      simp [joinSep, sepJoin]
    | cons f' r' =>
      show sep ++ joinSep sep (f :: f' :: r') = sep ++ f ++ sepJoin (f' :: r')
      rw [show joinSep sep (f :: f' :: r') = f ++ sep ++ joinSep sep (f' :: r') from rfl]
      rw [← ih (by simp)]
      simp

theorem combineBody_eq : ∀ contents : List Str,
    combineBody contents = sepJoin ((contents.map extractPlacemarks).flatten) := by
  intro contents
  induction contents with
  | nil => rfl
  | cons c rest ih =>
    show (match extractPlacemarks c with
          | [] => []
          | ps => sep ++ joinSep sep ps) ++ combineBody rest = _
    rw [show ((c :: rest).map extractPlacemarks).flatten
        = extractPlacemarks c ++ (rest.map extractPlacemarks).flatten from by simp]
    rw [sepJoin_append, ih]
    cases hext : extractPlacemarks c with
    | nil => simp [sepJoin]
    | cons f r =>
      show (sep ++ joinSep sep (f :: r)) ++ sepJoin (List.map extractPlacemarks rest).flatten
          = sepJoin (f :: r) ++ sepJoin (List.map extractPlacemarks rest).flatten
      rw [sepChunk_eq (f :: r) (by simp)]

theorem combineBody_eq_direct : ∀ contents : List Str,
    combineBody contents = combineBodyDirect contents := by
  intro contents
  induction contents with
  | nil => rfl
  | cons c rest ih =>
    show (match extractPlacemarks c with
          | [] => []
          | ps => sep ++ joinSep sep ps) ++ combineBody rest =
         (match pmMatches c with
          | [] => []
          | ps => sep ++ joinSep sep ps) ++ combineBodyDirect rest
    rw [extract_eq_direct, ih]

/-- Claim C4: for every ordered list of source output documents, the merged
document produced by the combiner contains exactly the concatenation of the
per-document extracted placemark fragments, in source order, inside the
single wrapping Document element; in particular the number of placemark
fragments of the merged document is the sum of the per-document extraction
counts, and a source whose extraction is empty contributes nothing (the
combiner is total, so such a source never makes the combine fail). -/
theorem claim_C4_combiner_sum (contents : List Str) :
    pmMatches (combineKmlFiles contents) = (contents.map extractPlacemarks).flatten ∧
    (pmMatches (combineKmlFiles contents)).length =
      ((contents.map extractPlacemarks).map List.length).sum := by
  have hfrag : ∀ f ∈ (contents.map extractPlacemarks).flatten, IsFrag f := by
    intro f hf
    obtain ⟨l, hl, hfl⟩ := List.mem_flatten.mp hf
    obtain ⟨c, _, rfl⟩ := List.mem_map.mp hl
    rw [extract_eq_direct] at hfl
    exact pmMatches_frag f hfl
  have h1 : pmMatches (combineKmlFiles contents) = (contents.map extractPlacemarks).flatten := by
    unfold combineKmlFiles
    rw [combineBody_eq]
    exact pm_main _ hfrag
  refine ⟨h1, ?_⟩
  rw [h1, List.length_flatten]

/-- Claim C10: when the direct scan (tier a) finds no placemark, the
document-scoped (tier b) and root-scoped (tier c) scans find none either,
because they apply the same pattern to infixes of the same text; hence the
combiner equals a combiner that uses only the direct scan. -/
theorem claim_C10_three_tier :
    (∀ s : Str, pmMatches s = [] → tierDoc s = [] ∧ tierKml s = []) ∧
    ∀ contents : List Str, combineKmlFiles contents = combineKmlDirect contents := by
  constructor
  · intro s h
    have he2 : extractPlacemarks s = [] := by
      rw [extract_eq_direct]
      exact h
    have htd : tierDoc s = [] := by
      cases htd' : tierDoc s with
      | nil => rfl
      | cons f r =>
        exfalso
        rw [show extractPlacemarks s = f :: r from by
          simp [extractPlacemarks, h, htd']] at he2
        simp at he2
    refine ⟨htd, ?_⟩
    rw [← show extractPlacemarks s = tierKml s from by
      simp [extractPlacemarks, h, htd]]
    exact he2
  · intro contents
    unfold combineKmlFiles combineKmlDirect
    rw [combineBody_eq_direct]

/-- Witness for the hypothesis of the three-tier theorem at a text that
contains a document wrapper but no placemark. -/
theorem claim_C10_three_tier_witness :
    pmMatches exNoPm = [] ∧ tierDoc exNoPm = [] ∧ tierKml exNoPm = [] :=
  ⟨by decide, (claim_C10_three_tier.1 exNoPm (by decide)).1,
    (claim_C10_three_tier.1 exNoPm (by decide)).2⟩

/-! ## Theorems: archive listing validator -/

/-- Claim C3 counterexample: a listing whose candidate base name contains
`.shp` as an infix forms a complete triplet under suffix-stripped base
names (the claim's reading), yet the validator rejects it, because the
implementation derives the base by removing the first `.shp` occurrence. -/
theorem claim_C3_counterexample :
    specClaimC3Valid exListingC3 ∧ validateZipContents exListingC3 ≠ VResult.valid :=
  ⟨by decide, by decide⟩

/-- Claim C3 as amended: the validator reports valid iff the lowercased
listing has at least one `.shp` entry and, for every such entry, all three
required names — derived from the base obtained by deleting the first
`.shp` occurrence — are present case-insensitively; with no `.shp` entry it
fails with the no-source-files error. -/
theorem claim_C3_validator (names : List Str) :
    (validateZipContents names = .valid ↔
      (shpFilesOf names ≠ [] ∧
        ∀ f ∈ shpFilesOf names, ∀ r ∈ requiredOf f,
          memB (lowerL r) (names.map lowerL) = true)) ∧
    (shpFilesOf names = [] → validateZipContents names = .invalid noSourceMsg) := by
  constructor
  · constructor
    · intro hv
      unfold validateZipContents at hv
      cases hsf : shpFilesOf names with
      | nil =>
        rw [hsf] at hv
        exact absurd hv (by simp)
      | cons f r =>
        rw [hsf] at hv
        cases hmc : missingComponentsOf names with
        | cons m ms =>
          rw [hmc] at hv
          exact absurd hv (by simp)
        | nil =>
          refine ⟨by simp, ?_⟩
          intro f' hf' r' hr'
          have hf'' : f' ∈ shpFilesOf names := by
            rw [hsf]
            exact hf'
          have hnone := List.filterMap_eq_nil_iff.mp
            (show (shpFilesOf names).filterMap (compOf (names.map lowerL)) = [] from hmc)
            f' hf''
          unfold compOf at hnone
          cases hm : missingOf (names.map lowerL) f' with
          | cons x xs =>
            rw [hm] at hnone
            exact Option.noConfusion hnone
          | nil =>
            have hr := List.filter_eq_nil_iff.mp hm r' hr'
            simpa using hr
    · rintro ⟨hne, hall⟩
      unfold validateZipContents
      cases hsf : shpFilesOf names with
      | nil => exact absurd hsf hne
      | cons f r =>
        have hmc : missingComponentsOf names = [] := by
          unfold missingComponentsOf
          apply List.filterMap_eq_nil_iff.mpr
          intro shp hshp
          unfold compOf
          cases hm : missingOf (names.map lowerL) shp with
          | nil => rfl
          | cons x xs =>
            exfalso
            have hx : x ∈ missingOf (names.map lowerL) shp := by
              rw [hm]
              simp
            have hx2 := List.mem_filter.mp hx
            have := hall shp hshp x hx2.1
            rw [this] at hx2
            simp at hx2
        rw [hmc]
  · intro hsf
    unfold validateZipContents
    rw [hsf]

/-- Witness for the amended validator theorem: a complete lowercase triplet
is accepted, and a `.shp`-free listing yields the no-source-files error. -/
theorem claim_C3_validator_witness :
    validateZipContents [("parcels.shp").toList, ("parcels.shx").toList, ("parcels.dbf").toList]
      = VResult.valid ∧
    validateZipContents [("readme.txt").toList] = VResult.invalid noSourceMsg := by
  constructor
  · exact ((claim_C3_validator
      [("parcels.shp").toList, ("parcels.shx").toList, ("parcels.dbf").toList]).1).mpr
      ⟨by decide, by decide⟩
  · exact (claim_C3_validator [("readme.txt").toList]).2 (by decide)

/-- Claim C9: every entry of the validator's report names exactly the
required companions that are absent (`missing`) and those present
(`found`) — together they partition the candidate's required-name list —
and on the claim's listing (`parcels.shp`, `parcels.shx`, no
`parcels.dbf`) the report is exactly `parcels.shp` missing
`[parcels.dbf]`, found `[parcels.shp, parcels.shx]`. -/
theorem claim_C9_missing_report :
    (∀ names comp, comp ∈ missingComponentsOf names →
      ∃ shp ∈ shpFilesOf names,
        comp.shapefile = replaceFirst shpExt [] shp ++ shpExt ∧
        comp.missing = missingOf (names.map lowerL) shp ∧
        comp.found = foundOf (names.map lowerL) shp ∧
        comp.missing ≠ [] ∧
        List.Perm (comp.missing ++ comp.found) (requiredOf shp)) ∧
    missingComponentsOf exListingC9 =
      [{ shapefile := ("parcels.shp").toList,
         missing := [("parcels.dbf").toList],
         found := [("parcels.shp").toList, ("parcels.shx").toList] }] ∧
    validateZipContents exListingC9 ≠ VResult.valid := by
  refine ⟨?_, by decide, by decide⟩
  intro names comp hc
  obtain ⟨shp, hshp, hg⟩ := List.mem_filterMap.mp hc
  refine ⟨shp, hshp, ?_⟩
  unfold compOf at hg
  cases hm : missingOf (names.map lowerL) shp with
  | nil =>
    rw [hm] at hg
    exact Option.noConfusion hg
  | cons x xs =>
    rw [hm] at hg
    simp only [Option.some.injEq] at hg
    subst hg
    refine ⟨rfl, rfl, rfl, by simp, ?_⟩
    show ((x :: xs) ++ foundOf (names.map lowerL) shp).Perm (requiredOf shp)
    rw [← hm]
    exact List.Perm.trans List.perm_append_comm (List.filter_append_perm _ _)

/-! ## Theorems: input-directory locator -/

theorem find?_first {α : Type} (p : α → Bool) :
    ∀ (pre : List α) (e : α) (post : List α), (∀ x ∈ pre, p x = false) → p e = true →
      List.find? p (pre ++ e :: post) = some e := by
  intro pre
  induction pre with
  | nil =>
    intro e post _ hp
    exact List.find?_cons_of_pos post hp
  | cons a pre' ih =>
    intro e post hall hp
    rw [List.cons_append]
    rw [List.find?_cons_of_neg (pre' ++ e :: post) (by simp [hall a (by simp)])]
    exact ih e post (fun x hx => hall x (by simp [hx])) hp

/-- Claim C2 counterexample: the extraction root holds a `.shp` file, yet
the locator selects the first qualifying subdirectory instead of the root;
and with no `.shp` anywhere the locator still selects the root (`none`)
rather than failing. -/
theorem claim_C2_counterexample :
    exEntriesC2.any (fun e => !(isDirB e) && endsWithB e.name shpExt) = true ∧
    locateInputDir exEntriesC2 = some (("sub").toList) ∧
    locateInputDir exEntriesC2 ≠ none ∧
    locateInputDir exEntriesC2b = none :=
  ⟨by decide, by decide, by decide, by decide⟩

/-- Claim C2 as amended: whenever some subdirectory contains a `.shp`
file, the first such subdirectory (in listing order) is selected, ignoring
the root's own contents; otherwise the extraction root is used (`none`),
and no error is produced at this step even when no `.shp` exists
anywhere. -/
theorem claim_C2_locator (entries : List DirEntry) :
    (locateInputDir entries = none ↔ ∀ e ∈ entries, isDirB e = true → hasShpB e = false) ∧
    (∀ pre e post, entries.filter isDirB = pre ++ e :: post →
      (∀ x ∈ pre, hasShpB x = false) → hasShpB e = true →
      locateInputDir entries = some e.name) ∧
    (∀ d, locateInputDir entries = some d →
      ∃ e ∈ entries, isDirB e = true ∧ hasShpB e = true ∧ d = e.name) := by
  refine ⟨?_, ?_, ?_⟩
  · unfold locateInputDir
    rw [Option.map_eq_none', List.find?_eq_none]
    constructor
    · intro h e he hdir
      have := h e (List.mem_filter.mpr ⟨he, hdir⟩)
      simpa using this
    · intro h e he
      have h2 := List.mem_filter.mp he
      simp [h e h2.1 h2.2]
  · intro pre e post hsplit hall hp
    unfold locateInputDir
    rw [hsplit, find?_first hasShpB pre e post hall hp]
    rfl
  · intro d h
    unfold locateInputDir at h
    cases hf : (entries.filter isDirB).find? hasShpB with
    | none =>
      rw [hf] at h
      exact Option.noConfusion h
    | some e =>
      rw [hf] at h
      simp only [Option.map_some', Option.some.injEq] at h
      have hm := List.mem_filter.mp (List.mem_of_find?_eq_some hf)
      exact ⟨e, hm.1, hm.2, List.find?_some hf, h.symm⟩

/-- Witness for the amended locator theorem: with a shp-free directory
first, the second subdirectory is selected. -/
theorem claim_C2_locator_witness :
    locateInputDir
      [{ name := ("docs").toList, sub := some [("readme.txt").toList] },
       { name := ("dataset").toList, sub := some [("parcels.shp").toList] }] =
    some (("dataset").toList) := by
  exact (claim_C2_locator
    [{ name := ("docs").toList, sub := some [("readme.txt").toList] },
     { name := ("dataset").toList, sub := some [("parcels.shp").toList] }]).2.1
    [{ name := ("docs").toList, sub := some [("readme.txt").toList] }]
    { name := ("dataset").toList, sub := some [("parcels.shp").toList] }
    [] (by decide) (by decide) (by decide)

/-! ## Theorems: converter diagnostic scanner -/

theorem mem_joinSep_within (g : Str) : ∀ ls, ∀ l ∈ ls, l <:+: joinSep g ls := by
  intro ls
  induction ls with
  | nil =>
    intro l h
    simp at h
  | cons f r ih =>
    intro l hl
    rcases List.mem_cons.mp hl with rfl | hr
    · cases r with
      | nil => exact ⟨[], [], by simp [joinSep]⟩
      | cons f' r' =>
        exact ⟨[], g ++ joinSep g (f' :: r'), by
          show [] ++ l ++ (g ++ joinSep g (f' :: r')) = l ++ g ++ joinSep g (f' :: r')
          simp⟩
    · cases r with
      | nil => exact absurd hr (by simp)
      | cons f' r' =>
        obtain ⟨s, t, hst⟩ := ih l hr
        exact ⟨f ++ g ++ s, t, by
          show (f ++ g ++ s) ++ l ++ t = f ++ g ++ joinSep g (f' :: r')
          rw [← hst]
          simp⟩

/-- Claim C5 counterexample: an output where the files-listing header
precedes the no-valid-sources marker and no bullet line follows the marker
itself.  Per the claim no detail lines follow the marker, so the raw text
should become the message; the implementation instead collects the bullets
after the files-listing header and builds the structured message. -/
theorem claim_C5_counterexample :
    containsB exOutC5 noValidMarker = true ∧
    collectBullets noValidMarker (splitLines exOutC5) false = [] ∧
    (scanOutput exOutC5).isSome = true ∧
    scanOutput exOutC5 ≠ some exOutC5 :=
  ⟨by decide, by decide, by decide, by decide⟩

/-- Claim C5 as amended: a `ConversionError` is raised iff one of the two
markers occurs in the captured text.  For the validation-error marker the
detail lines are the bullet lines following the marker (blank-line
terminated) and each collected line occurs in the raised message, with the
raw text as the message when none is collected.  For the no-valid-sources
marker the detail lines are collected after the files-listing header line
`Files found in the directory:` — not after the marker itself — with the
same raw-text fallback. -/
theorem claim_C5_scan (out : Str) :
    (containsB out valMarker = false → containsB out noValidMarker = false →
      scanOutput out = none) ∧
    (containsB out valMarker = true →
      (collectBullets valMarker (splitLines out) false = [] →
        scanOutput out = some out) ∧
      (collectBullets valMarker (splitLines out) false ≠ [] →
        ∃ m, scanOutput out = some m ∧
          ∀ l ∈ collectBullets valMarker (splitLines out) false, l <:+: m)) ∧
    (containsB out valMarker = false → containsB out noValidMarker = true →
      (collectBullets filesMarker (splitLines out) false = [] →
        scanOutput out = some out) ∧
      (collectBullets filesMarker (splitLines out) false ≠ [] →
        ∃ m, scanOutput out = some m ∧
          ∀ l ∈ collectBullets filesMarker (splitLines out) false, l <:+: m)) := by
  refine ⟨?_, ?_, ?_⟩
  · intro hv hn
    simp [scanOutput, hv, hn]
  · intro hv
    constructor
    · intro hc
      simp [scanOutput, hv, hc]
    · intro hc
      cases hcb : collectBullets valMarker (splitLines out) false with
      | nil => exact absurd hcb hc
      | cons l0 r0 =>
        refine ⟨valFailHead ++ joinSep nlStr (l0 :: r0), by simp [scanOutput, hv, hcb], ?_⟩
        intro l hl
        obtain ⟨s, t, hst⟩ := mem_joinSep_within nlStr (l0 :: r0) l hl
        exact ⟨valFailHead ++ s, t, by rw [← hst]; simp⟩
  · intro hv hn
    constructor
    · intro hc
      simp [scanOutput, hv, hn, hc]
    · intro hc
      cases hcb : collectBullets filesMarker (splitLines out) false with
      | nil => exact absurd hcb hc
      | cons l0 r0 =>
        refine ⟨noValidHead ++ joinSep nlStr (l0 :: r0) ++ noValidTail,
          by simp [scanOutput, hv, hn, hcb], ?_⟩
        intro l hl
        obtain ⟨s, t, hst⟩ := mem_joinSep_within nlStr (l0 :: r0) l hl
        refine ⟨noValidHead ++ s, t ++ noValidTail, ?_⟩
        rw [show (noValidHead ++ s) ++ l ++ (t ++ noValidTail)
            = noValidHead ++ (s ++ l ++ t) ++ noValidTail from by simp, hst]

/-- Witness for the amended scanner theorem on an output with the
validation-error marker and one bullet detail line. -/
theorem claim_C5_scan_witness :
    ∃ m, scanOutput exOutC5w = some m ∧ ("- parcels.shp is missing .dbf").toList <:+: m := by
  obtain ⟨m, hm, hall⟩ := ((claim_C5_scan exOutC5w).2.1 (by decide)).2 (by decide)
  exact ⟨m, hm, hall _ (by decide)⟩

/-! ## Theorems: pipeline record updates and reclamation -/

/-- Claim C1 failing run: conversion succeeds and the COMPLETED record is
persisted, then the success-path removal of the extraction workspace
throws; the catch block persists FAILED over the already-terminal record
(two terminal writes), while a fully successful run writes COMPLETED
exactly once. -/
theorem claim_C1_status_override :
    (runPipeline envRmFail cid1 orig1 stored1 [uploadPath stored1]).writes
      = [JStatus.completed, JStatus.failed] ∧
    (runPipeline envRmFail cid1 orig1 stored1 [uploadPath stored1]).jrec.status
      = JStatus.failed ∧
    (runPipeline envRmFail cid1 orig1 stored1 [uploadPath stored1]).jrec.kmlContent ≠ none ∧
    (runPipeline envOk cid1 orig1 stored1 [uploadPath stored1]).writes
      = [JStatus.completed] := by
  refine ⟨by decide, by decide, by decide, by decide⟩

/-- Claim C6 failing run: the converter throws, the job fails, and the
error-path cleanup removes `uploads/<originalName>` instead of the stored
upload `uploads/<uuid>_<originalName>`; the workspace and output
directories are reclaimed but the uploaded archive remains on disk.  On
the success path all three are reclaimed. -/
theorem claim_C6_upload_not_reclaimed :
    (runPipeline envPyFail cid1 orig1 stored1 [uploadPath stored1]).fs
      = [uploadPath stored1] ∧
    uploadPath stored1 ∈ (runPipeline envPyFail cid1 orig1 stored1 [uploadPath stored1]).fs ∧
    (runPipeline envPyFail cid1 orig1 stored1 [uploadPath stored1]).jrec.status
      = JStatus.failed ∧
    (runPipeline envOk cid1 orig1 stored1 [uploadPath stored1]).fs = [] := by
  refine ⟨by decide, by decide, by decide, by decide⟩

/-- Claim C7: every run that reaches COMPLETED with exactly one generated
output file persists that file's name as the combined output name, its
content as the combined content, and the file as the sole individual
entry. -/
theorem claim_C7_single_output (env : Env) (cid origName storedName : Str)
    (fs0 : List Str) (f : Str × Str)
    (hx : env.extractOk = true) (hpy : env.pyThrow = none)
    (hscan : scanOutput env.pyOutput = none)
    (hout : env.outFiles.filter (fun x => endsWithB x.1 kmlExt) = [f])
    (hr1 : env.rmExtract = true) (hr2 : env.rmOutput = true) (hr3 : env.rmUpload = true) :
    (runPipeline env cid origName storedName fs0).jrec.status = JStatus.completed ∧
    (runPipeline env cid origName storedName fs0).jrec.kmlFileName = some f.1 ∧
    (runPipeline env cid origName storedName fs0).jrec.kmlContent = some f.2 ∧
    (runPipeline env cid origName storedName fs0).jrec.individualFiles = [f] := by
  simp only [runPipeline, hx, hpy, hscan, hout, finishRemoves, hr1, hr2, hr3,
    Bool.not_true, Bool.false_eq_true, if_false, List.isEmpty_nil, if_true]
  exact ⟨trivial, trivial, trivial, trivial⟩

/-- Witness for the single-output completion theorem. -/
theorem claim_C7_single_output_witness :
    (runPipeline envOk cid1 orig1 stored1 [uploadPath stored1]).jrec.status
      = JStatus.completed ∧
    (runPipeline envOk cid1 orig1 stored1 [uploadPath stored1]).jrec.kmlFileName
      = some (("a.kml").toList) ∧
    (runPipeline envOk cid1 orig1 stored1 [uploadPath stored1]).jrec.kmlContent
      = some (("x").toList) ∧
    (runPipeline envOk cid1 orig1 stored1 [uploadPath stored1]).jrec.individualFiles
      = [((("a.kml").toList), ("x").toList)] :=
  claim_C7_single_output envOk cid1 orig1 stored1 [uploadPath stored1]
    ((("a.kml").toList), ("x").toList) (by decide) rfl (by decide) (by decide)
    rfl rfl rfl

/-! ## Theorems: download endpoints -/

/-- Claim C8: when the record's status is not COMPLETED, each of the three
download operations answers the not-completed error (HTTP 400) and no
output content is returned. -/
theorem claim_C8_not_ready (r : JobRec) (fname : Str)
    (h : r.status ≠ JStatus.completed) :
    downloadCombined (some r) = DlOut.httpError 400 msgNotCompleted ∧
    downloadIndividual (some r) fname = DlOut.httpError 400 msgNotCompleted ∧
    downloadAll (some r) = DlOut.httpError 400 msgNotCompleted := by
  refine ⟨?_, ?_, ?_⟩ <;>
    simp [downloadCombined, downloadIndividual, downloadAll, h]

/-- Witness for the download gating theorem at a record still in
processing. -/
theorem claim_C8_not_ready_witness :
    downloadCombined (some procRec) = DlOut.httpError 400 msgNotCompleted ∧
    downloadIndividual (some procRec) (("a.kml").toList)
      = DlOut.httpError 400 msgNotCompleted ∧
    downloadAll (some procRec) = DlOut.httpError 400 msgNotCompleted :=
  claim_C8_not_ready procRec (("a.kml").toList) (by decide)

/-- Witness for the report-shape theorem at the claim's particular
listing. -/
theorem claim_C9_missing_report_witness :
    ∃ shp ∈ shpFilesOf exListingC9,
      mcompC9.shapefile = replaceFirst shpExt [] shp ++ shpExt ∧
      mcompC9.missing = missingOf (exListingC9.map lowerL) shp ∧
      mcompC9.found = foundOf (exListingC9.map lowerL) shp ∧
      mcompC9.missing ≠ [] ∧
      List.Perm (mcompC9.missing ++ mcompC9.found) (requiredOf shp) :=
  claim_C9_missing_report.1 exListingC9 mcompC9 (by decide)
